import Mathlib

/-! Verification of the link-extraction and link-rewriting logic of the
CycleCogs repository, shallowly embedded over `List Char`.

The embedded code:
* `src/linkvertise_cog/utils.py`: `URL_PATTERN`, `is_valid_domain`,
  `extract_urls`, `convert_to_linkvertise` (together with the fragments of the
  Python standard library they invoke: `re` matching of the two concrete
  patterns, `urllib.parse.urlparse` netloc extraction, and
  `ipaddress.ip_address` validity);
* the offset-tracking rewrite loop of `LinkvertiseCog.on_message` in
  `src/linkvertise_cog/cog.py` (lines 65-89), called `rewrite_links` here,
  following the specification's name for it.

Strings are modelled as `List Char`.  Character classes (`\w`, `\s`,
`[a-zA-Z]`, `str.isalpha`) are modelled on their ASCII fragments; `str.lower`
is modelled on its ASCII fragment extended with U+212A KELVIN SIGN (the one
non-ASCII character Python lowers to an ASCII character), which is exact for
every character the claims exercise. -/

namespace CycleCogs

/-! ## Character classes -/

/-- ASCII decimal digit, `[0-9]`. -/
def isDigitC (c : Char) : Bool := 48 ≤ c.toNat && c.toNat ≤ 57

/-- ASCII uppercase letter, `[A-Z]`. -/
def isUpperC (c : Char) : Bool := 65 ≤ c.toNat && c.toNat ≤ 90

/-- ASCII lowercase letter, `[a-z]`. -/
def isLowerC (c : Char) : Bool := 97 ≤ c.toNat && c.toNat ≤ 122

/-- ASCII letter, `[a-zA-Z]`. -/
def isAlphaC (c : Char) : Bool := isUpperC c || isLowerC c

/-- ASCII letter or digit, `[a-zA-Z0-9]`. -/
def isAlnumC (c : Char) : Bool := isAlphaC c || isDigitC c

/-- Python `\w` (ASCII fragment): letter, digit or underscore. -/
def isWordC (c : Char) : Bool := isAlnumC c || c == '_'

/-- The class `[\w-]` of `URL_PATTERN`. -/
def isWordDashC (c : Char) : Bool := isWordC c || c == '-'

/-- The class `[a-zA-Z0-9-]` of the domain-format pattern. -/
def isAlnumDashC (c : Char) : Bool := isAlnumC c || c == '-'

/-- Python `\s` (ASCII fragment): space, tab, newline, CR, VT, FF. -/
def isSpaceC (c : Char) : Bool :=
  c == ' ' || c == '\t' || c == '\n' || c == '\x0d' || c == '\x0b' || c == '\x0c'

/-- Hexadecimal digit, as accepted by `ipaddress`'s `_HEX_DIGITS`. -/
def isHexC (c : Char) : Bool :=
  isDigitC c || (97 ≤ c.toNat && c.toNat ≤ 102) || (65 ≤ c.toNat && c.toNat ≤ 70)

/-- Python `str.lower` on one character.  Modelled exactly on ASCII (`A`-`Z`
map to `a`-`z`) and on U+212A KELVIN SIGN, the single non-ASCII character
whose one-to-one lowercase image is an ASCII character (`k`); every other
character is left unchanged.  This under-approximates full Unicode lowering,
but all remaining mappings send non-ASCII characters to non-ASCII characters,
outside every ASCII character class the validator uses. -/
def lowerChar (c : Char) : Char :=
  if 65 ≤ c.toNat && c.toNat ≤ 90 then Char.ofNat (c.toNat + 32)
  else if c.toNat = 0x212A then 'k'
  else c

/-- The ASCII action of `lowerChar`, used to factor the case-insensitivity
proofs: on ASCII strings it coincides with `lowerChar`. -/
def asciiLower (c : Char) : Char :=
  if 65 ≤ c.toNat && c.toNat ≤ 90 then Char.ofNat (c.toNat + 32) else c

/-- Python `str.lower` (same fragment as `lowerChar`). -/
def lowerStr (s : List Char) : List Char := s.map lowerChar

/-- `asciiLower` mapped over a string. -/
def asciiLowerStr (s : List Char) : List Char := s.map asciiLower

/-! ## List utilities mirroring Python string operations -/

/-- Python `str.split(sep)` for a one-character separator: splits at every
occurrence, keeping empty pieces, so the result is always nonempty. -/
def splitOnChar (sep : Char) : List Char → List (List Char)
  | [] => [[]]
  | c :: rest =>
    let r := splitOnChar sep rest
    if c == sep then [] :: r else (c :: r.headD []) :: r.tail

/-- Length of the maximal run of characters satisfying `p` starting at
position `i` of `l` (the span a greedy `[class]+` or `[class]*` consumes). -/
def runLen (p : Char → Bool) (l : List Char) (i : Nat) : Nat :=
  ((l.drop i).takeWhile p).length

/-- Remove a single trailing newline if present (the position accepted by
Python's `$` anchor besides the very end of the string). -/
def stripNl (l : List Char) : List Char :=
  if l.getLastD 'x' == '\n' then l.dropLast else l

/-- Python's substring test `pat in l` (`in` on `str`). -/
def hasInfix (l pat : List Char) : Bool :=
  match l with
  | [] => pat.isEmpty
  | _ :: rest => pat.isPrefixOf l || hasInfix rest pat

/-! ## The URL pattern

`URL_PATTERN = r'(?:https?:\/\/)?(?:[\w-]+\.)+[a-z]{2,}(?:\/[^\s]*)?'`,
matched case-insensitively (`re.IGNORECASE`).  Backtracking for this pattern
collapses to the following deterministic procedure:

* A present `http://` / `https://` prefix (case-insensitive) can be committed
  to: if the remainder fails, the scheme-less alternative also fails at the
  same start position, because the maximal `[\w-]+` run there (`http`/`https`)
  is followed by `:`, never by the `.` that `(?:[\w-]+\.)+` requires.
* Inside `(?:[\w-]+\.)+`, each `[\w-]+` is a maximal run (it can never end
  early, since the following `\.` is not in the class), so only the number of
  groups is subject to backtracking, greedily from the largest count down.
* `[a-z]{2,}` is a maximal letter run: the following `(?:\/[^\s]*)?` begins
  with `/`, which is not a letter, so shortening never helps.  Likewise
  `[^\s]*` is maximal since nothing follows it.  -/

/-- Length consumed by `(?:https?:\/\/)?` at position `i` (case-insensitive,
preferring the longer scheme; 0 when no scheme is present). -/
def schemeLen (l : List Char) (i : Nat) : Nat :=
  if lowerStr ((l.drop i).take 8) = "https://".toList then 8
  else if lowerStr ((l.drop i).take 7) = "http://".toList then 7
  else 0

/-- Positions reached after matching 1, 2, 3, ... repetitions of
`(?:[\w-]+\.)` greedily from position `i`; the last entry corresponds to the
greedy-maximal repetition count.  `fuel` bounds the recursion depth and is
always called with more fuel than repetitions are possible. -/
def groupEndsGo (l : List Char) : Nat → Nat → List Nat
  | 0, _ => []
  | fuel + 1, i =>
    let r := runLen isWordDashC l i
    if 0 < r && (l[i + r]? == some '.') then
      (i + r + 1) :: groupEndsGo l fuel (i + r + 1)
    else []

/-- Positions reached after each possible repetition count of `(?:[\w-]+\.)+`
from position `i` (in increasing order of repetition count). -/
def groupEnds (l : List Char) (i : Nat) : List Nat :=
  groupEndsGo l (l.length + 1) i

/-- Match `[a-z]{2,}(?:\/[^\s]*)?` (case-insensitive) at position `q`,
returning the end position of the whole match. -/
def tryTail (l : List Char) (q : Nat) : Option Nat :=
  let m := runLen isAlphaC l q
  if 2 ≤ m then
    let le := q + m
    if l[le]? == some '/' then some (le + 1 + runLen (fun c => !isSpaceC c) l (le + 1))
    else some le
  else none

/-- Backtracking over the repetition count of `(?:[\w-]+\.)+`: try the
largest count (last list entry) first, per greedy `+` semantics. -/
def pickGreedy (l : List Char) : List Nat → Option Nat
  | [] => none
  | q :: rest =>
    match pickGreedy l rest with
    | some e => some e
    | none => tryTail l q

/-- Attempt to match `URL_PATTERN` at position `i`; returns the end position
of the (unique leftmost) match starting there, if any. -/
def matchAt (l : List Char) (i : Nat) : Option Nat :=
  pickGreedy l (groupEnds l (i + schemeLen l i))

/-- The scan loop of `re.finditer`: try each start position left to right and
resume scanning at the end of each (nonempty) match. -/
def finditerGo (l : List Char) : Nat → Nat → List (Nat × Nat)
  | 0, _ => []
  | fuel + 1, i =>
    if l.length ≤ i then []
    else
      match matchAt l i with
      | some e => (i, e) :: finditerGo l fuel (max e (i + 1))
      | none => finditerGo l fuel (i + 1)

/-- All matches of `URL_PATTERN` in `l`, as `(start, end)` spans, in
left-to-right non-overlapping order (`re.finditer` semantics). -/
def finditer (l : List Char) : List (Nat × Nat) :=
  finditerGo l (l.length + 1) 0

/-! ## `urllib.parse.urlparse(...).netloc` -/

/-- Characters allowed after the first one in a URL scheme
(`urllib.parse.scheme_chars`). -/
def scheme_char_ok (c : Char) : Bool :=
  isAlnumC c || c == '+' || c == '-' || c == '.'

/-- The `netloc` component that `urllib.parse.urlparse` assigns to `u`:
after removing the unsafe bytes tab/CR/LF, strip a leading `scheme:` when the
text before the first `:` is a syntactically valid scheme, then, if the rest
begins with `//`, take everything up to the first `/`, `?` or `#`; otherwise
the netloc is empty. -/
def urlparse_netloc (u0 : List Char) : List Char :=
  let u := u0.filter (fun c => !(c == '\t' || c == '\x0d' || c == '\n'))
  let rest :=
    match u.findIdx? (fun c => c == ':') with
    | some i =>
      if 0 < i && isAlphaC (u.headD ' ') && ((u.take i).drop 1).all scheme_char_ok then
        u.drop (i + 1)
      else u
    | none => u
  if rest.take 2 = "//".toList then
    (rest.drop 2).takeWhile (fun c => !(c == '/' || c == '?' || c == '#'))
  else []

/-! ## `ipaddress.ip_address` -/

/-- A valid dotted-quad octet per `IPv4Address._parse_octet`: nonempty, all
ASCII digits, at most 3 of them, no leading zero (unless the octet is `0`),
and value at most 255. -/
def octet_ok (p : List Char) : Bool :=
  !p.isEmpty && p.all isDigitC && p.length ≤ 3 &&
    !(p.headD '0' == '0' && p.length != 1) &&
    p.foldl (fun a c => 10 * a + (c.toNat - 48)) 0 ≤ 255

/-- `IPv4Address` parsing: no `/`, exactly four `.`-separated valid octets. -/
def is_ipv4_addr (s : List Char) : Bool :=
  !s.contains '/' && (splitOnChar '.' s).length == 4 && (splitOnChar '.' s).all octet_ok

/-- A valid hextet per `IPv6Address._parse_hextet`: one to four hex digits.
(The parser only ever reaches nonempty pieces.) -/
def hextet_ok (p : List Char) : Bool :=
  !p.isEmpty && p.length ≤ 4 && p.all isHexC

/-- The `::`-compression bookkeeping of `IPv6Address._ip_int_from_string`,
applied to the `:`-separated pieces (after any embedded-IPv4 tail has been
replaced by two hextets):
at most 9 pieces; at most one empty piece strictly inside; an empty first
piece only directly before the inside gap, an empty last piece only directly
after it; and at most 7 hextets present in total. -/
def ipv6_parts_ok (parts : List (List Char)) : Bool :=
  parts.length ≤ 9 &&
    (((parts.drop 1).dropLast.findIdx? (fun p => p.isEmpty)).elim
      (parts.length == 8 && parts.all hextet_ok)
      (fun j =>
        (((parts.drop 1).dropLast.drop (j + 1)).all (fun p => !p.isEmpty)) &&
          (if (parts.headD ['x']).isEmpty then j + 1 == 1
           else (parts.take (j + 1)).all hextet_ok) &&
          (if (parts.getLastD ['x']).isEmpty then j + 3 == parts.length
           else (parts.drop (j + 2)).all hextet_ok) &&
          (if (parts.headD ['x']).isEmpty then 0 else j + 1) +
            (if (parts.getLastD ['x']).isEmpty then 0 else parts.length - j - 2) ≤ 7))

/-- `IPv6Address._ip_int_from_string` on the scope-free part: nonempty, at
least three `:`-separated pieces, an embedded dotted-quad tail is parsed as
IPv4 and stands for two hextets, and the compression bookkeeping holds. -/
def is_ipv6_core (s : List Char) : Bool :=
  !s.isEmpty && 3 ≤ (splitOnChar ':' s).length &&
    (if ((splitOnChar ':' s).getLastD []).contains '.' then
      (!((splitOnChar ':' s).getLastD []).contains '/' &&
          (splitOnChar '.' ((splitOnChar ':' s).getLastD [])).length == 4 &&
          (splitOnChar '.' ((splitOnChar ':' s).getLastD [])).all octet_ok) &&
        ipv6_parts_ok ((splitOnChar ':' s).dropLast ++ [['0'], ['0']])
    else ipv6_parts_ok (splitOnChar ':' s))

/-- `IPv6Address` parsing: no `/`; an optional `%scope` suffix whose scope id
is nonempty and `%`-free; the rest parses as an IPv6 numeric address. -/
def is_ipv6_addr (s : List Char) : Bool :=
  !s.contains '/' &&
    (if s.contains '%' then
      !((s.dropWhile (fun c => !(c == '%'))).drop 1).isEmpty &&
        !((s.dropWhile (fun c => !(c == '%'))).drop 1).contains '%' &&
        is_ipv6_core (s.takeWhile (fun c => !(c == '%')))
    else is_ipv6_core s)

/-- `ipaddress.ip_address(s)` succeeds (as IPv4 or IPv6). -/
def is_ip_address (s : List Char) : Bool :=
  is_ipv4_addr s || is_ipv6_addr s

/-! ## The domain-format pattern

`^[a-zA-Z0-9](?:[a-zA-Z0-9-]{0,61}[a-zA-Z0-9])?(?:\.[a-zA-Z]{2,})+$`,
matched by `re.match` with no flags.  As for the URL pattern, backtracking
collapses: the first label must be exactly the maximal `[a-zA-Z0-9-]` run
(the following `\.` forces it), and each `[a-zA-Z]{2,}` is a maximal letter
run (what follows is `\.`, or `$`, neither of which a letter satisfies).
Python's `$` also matches just before a single trailing newline. -/

/-- Match `(?:\.[a-zA-Z]{2,})+$` against the whole of `t` (with Python's
`$`-before-final-newline semantics).  `fuel` bounds recursion depth. -/
def tldGroupsGo : Nat → List Char → Bool
  | 0, _ => false
  | _ + 1, [] => false
  | fuel + 1, c :: rest =>
    if c = '.' then
      2 ≤ (rest.takeWhile isAlphaC).length &&
        ((rest.dropWhile isAlphaC).isEmpty || rest.dropWhile isAlphaC == ['\n'] ||
          tldGroupsGo fuel (rest.dropWhile isAlphaC))
    else false

/-- Match `(?:\.[a-zA-Z]{2,})+$` against the whole of `t`. -/
def tldGroupsMatch (t : List Char) : Bool :=
  tldGroupsGo (t.length + 1) t

/-- `re.match` of the domain-format pattern against the whole of `s`: the
first label is the maximal `[a-zA-Z0-9-]` run (nonempty, alphanumeric first
and last character, at most 63 characters) and the rest matches
`(?:\.[a-zA-Z]{2,})+$`. -/
def domainFormatMatch (s : List Char) : Bool :=
  !(s.takeWhile isAlnumDashC).isEmpty &&
    isAlnumC ((s.takeWhile isAlnumDashC).headD 'x') &&
    isAlnumC ((s.takeWhile isAlnumDashC).getLastD 'x') &&
    (s.takeWhile isAlnumDashC).length ≤ 63 &&
    tldGroupsMatch (s.dropWhile isAlnumDashC)

/-! ## `is_valid_domain` (src/linkvertise_cog/utils.py, lines 44-77) -/

/-- Whether `domain` is a valid, non-excluded, non-whitelisted domain. -/
def is_valid_domain (domain : List Char) (wl : List (List Char)) : Bool :=
  if !wl.isEmpty && (wl.map lowerStr).contains (lowerStr domain) then false
  else if lowerStr domain = "localhost".toList then false
  else if hasInfix (lowerStr domain) ("example.com".toList) then false
  else if is_ip_address domain then false
  else domainFormatMatch domain

/-! ## `extract_urls` (src/linkvertise_cog/utils.py, lines 79-97) -/

/-- The host that `extract_urls` derives for a raw match: parse the match as
a URL, prefixing `http://` when it contains no `://`, and take the netloc. -/
def candNetloc (url : List Char) : List Char :=
  urlparse_netloc (if hasInfix url ("://".toList) then url else "http://".toList ++ url)

/-- All valid URLs in `text` with their spans, as `(url, start, end)`. -/
def extract_urls (text : List Char) (wl : List (List Char)) :
    List (List Char × Nat × Nat) :=
  (finditer text).filterMap (fun se =>
    let url := (text.drop se.1).take (se.2 - se.1)
    if is_valid_domain (candNetloc url) wl then some (url, se.1, se.2) else none)

/-! ## The rewrite loop (src/linkvertise_cog/cog.py, lines 65-89) -/

/-- Python slice-bound normalisation: a negative bound counts from the end
(clamped at 0), a nonnegative one is clamped at the length. -/
def pySliceIdx (n : Nat) (i : Int) : Nat :=
  if i < 0 then n - (-i).toNat else min i.toNat n

/-- Python `l[:i]`. -/
def pyTake (l : List Char) (i : Int) : List Char := l.take (pySliceIdx l.length i)

/-- Python `l[i:]`. -/
def pyDrop (l : List Char) (i : Int) : List Char := l.drop (pySliceIdx l.length i)

/-- One iteration of the rewrite loop: skip when the conversion returned the
URL unchanged, otherwise splice the converted URL over the offset-shifted
span and update the running offset. -/
def rewriteStep (convert : List Char → List Char)
    (acc : List Char × Int) (m : List Char × Nat × Nat) : List Char × Int :=
  let nu := convert m.1
  if nu = m.1 then acc
  else
    (pyTake acc.1 ((m.2.1 : Int) + acc.2) ++ nu ++ pyDrop acc.1 ((m.2.2 : Int) + acc.2),
      acc.2 + ((nu.length : Int) - (m.1.length : Int)))

/-- The rewrite loop of `on_message`: fold the matches over the message text
starting from offset 0 and return the rewritten text. -/
def rewrite_links (text : List Char) (ms : List (List Char × Nat × Nat))
    (convert : List Char → List Char) : List Char :=
  (ms.foldl (rewriteStep convert) (text, 0)).1

/-! ## `convert_to_linkvertise` (src/linkvertise_cog/utils.py, lines 99-126)

The Linkvertise client call is external I/O; it is modelled as a function
that either succeeds with a converted URL or fails (raises).  Short.io
conversion is likewise external and already fail-soft in the source
(`create_shortio_link` returns `None` on any failure), so it is modelled as
an optional function returning an optional short URL. -/

def convert_to_linkvertise (url : List Char)
    (client : Nat → List Char → Except Unit (List Char)) (account_id : Nat)
    (shortio : Option (List Char → Option (List Char))) : List Char :=
  let url' :=
    if ("http://".toList).isPrefixOf url || ("https://".toList).isPrefixOf url then url
    else "http://".toList ++ url
  match client account_id url' with
  | Except.error _ => url'
  | Except.ok lv =>
    match shortio with
    | some f =>
      match f lv with
      | some su => su
      | none => lv
    | none => lv

/-! ## Spec-side definitions

The following definitions follow the specification's (or a claim's) wording
rather than the source; each is compared against the source-derived
definitions in the theorems below. -/

/-- The decomposition asserted by claim C10: the text outside the match spans
is kept verbatim, and each span is replaced by its conversion result (or kept
when the conversion returned it unchanged).  `p` is the position up to which
the text has been emitted. -/
def segsFrom (text : List Char) (convert : List Char → List Char) :
    Nat → List (List Char × Nat × Nat) → List Char
  | p, [] => text.drop p
  | p, (u, s, e) :: rest =>
    (text.drop p).take (s - p) ++ (if convert u = u then u else convert u) ++
      segsFrom text convert e rest

/-- A label that is "alphanumeric with internal hyphens allowed (1-63
characters, no leading or trailing hyphen)" (specification section 4.1). -/
def claimedLabelOk (d : List Char) : Bool :=
  !d.isEmpty && isAlnumC (d.headD 'x') && isAlnumC (d.getLastD 'x') &&
    d.length ≤ 63 && d.all isAlnumDashC

/-- A purely alphabetic label of length at least 2. -/
def alphaLabelOk (d : List Char) : Bool :=
  2 ≤ d.length && d.all isAlphaC

/-- The domain shape exactly as claim C5 words it: `label(.label)+` with every
label `claimedLabelOk` and the final label purely alphabetic, length ≥ 2. -/
def specClaimedShape (host : List Char) : Bool :=
  let parts := splitOnChar '.' host
  2 ≤ parts.length && parts.all claimedLabelOk && alphaLabelOk (parts.getLastD [])

/-- Proof helper: the dot-split characterisation of the
`(?:\.[a-zA-Z]{2,})+$` tail — the split of the (newline-stripped) tail must
begin with an empty piece (the leading dot) followed by one or more purely
alphabetic pieces of length ≥ 2. -/
def tldSplitForm (t : List Char) : Bool :=
  let parts := splitOnChar '.' (stripNl t)
  2 ≤ parts.length && (parts.headD ['x']).isEmpty && parts.tail.all alphaLabelOk

/-- The amended domain shape: dot-separated labels where the first label is
`claimedLabelOk` but every subsequent label must be purely alphabetic of
length ≥ 2 (only the first label may contain digits or hyphens), with a
single trailing newline tolerated (Python `$` semantics). -/
def specAmendedShape (host : List Char) : Bool :=
  let parts := splitOnChar '.' (stripNl host)
  2 ≤ parts.length && claimedLabelOk (parts.headD []) && parts.tail.all alphaLabelOk

/-! ## Facts about `asciiLower` and `lowerChar` -/

theorem asciiLower_toNat_of_upper {c : Char} (h1 : 65 ≤ c.toNat) (h2 : c.toNat ≤ 90) :
    (asciiLower c).toNat = c.toNat + 32 := by
  have hv : (c.toNat + 32).isValidChar := by
    left; omega
  unfold asciiLower
  rw [if_pos (by simp only [decide_eq_true_eq, Bool.and_eq_true]; omega)]
  rw [Char.ofNat, dif_pos hv]
  rfl

theorem asciiLower_of_not_upper {c : Char} (h : ¬(65 ≤ c.toNat ∧ c.toNat ≤ 90)) :
    asciiLower c = c := by
  unfold asciiLower
  rw [if_neg (by simp only [decide_eq_true_eq, Bool.and_eq_true]; omega)]

theorem char_eq_iff_toNat {c d : Char} : c = d ↔ c.toNat = d.toNat := by
  constructor
  · intro h; rw [h]
  · intro h; exact Char.eq_of_val_eq (UInt32.toNat.inj h)

theorem asciiLower_toNat (c : Char) :
    (asciiLower c).toNat = if 65 ≤ c.toNat ∧ c.toNat ≤ 90 then c.toNat + 32 else c.toNat := by
  by_cases h : 65 ≤ c.toNat ∧ c.toNat ≤ 90
  · rw [if_pos h]; exact asciiLower_toNat_of_upper h.1 h.2
  · rw [if_neg h, asciiLower_of_not_upper h]

theorem asciiLower_idem (c : Char) : asciiLower (asciiLower c) = asciiLower c := by
  apply asciiLower_of_not_upper
  rw [asciiLower_toNat]
  by_cases h : 65 ≤ c.toNat ∧ c.toNat ≤ 90
  · rw [if_pos h]; omega
  · rw [if_neg h]; omega

theorem asciiLowerStr_idem (s : List Char) : asciiLowerStr (asciiLowerStr s) = asciiLowerStr s := by
  unfold asciiLowerStr
  rw [List.map_map]
  exact List.map_congr_left (fun c _ => asciiLower_idem c)

/-- Equality with a character that is neither an ASCII uppercase nor lowercase
letter is unaffected by `asciiLower`. -/
theorem asciiLower_eq_nonletter {d : Char}
    (hd : ¬(65 ≤ d.toNat ∧ d.toNat ≤ 90) ∧ ¬(97 ≤ d.toNat ∧ d.toNat ≤ 122)) (c : Char) :
    (asciiLower c = d) ↔ (c = d) := by
  rw [char_eq_iff_toNat, char_eq_iff_toNat, asciiLower_toNat]
  by_cases h : 65 ≤ c.toNat ∧ c.toNat ≤ 90
  · rw [if_pos h]; omega
  · rw [if_neg h]

theorem asciiLower_beq_nonletter {d : Char}
    (hd : ¬(65 ≤ d.toNat ∧ d.toNat ≤ 90) ∧ ¬(97 ≤ d.toNat ∧ d.toNat ≤ 122)) (c : Char) :
    (asciiLower c == d) = (c == d) := by
  apply Bool.eq_iff_iff.mpr
  rw [beq_iff_eq, beq_iff_eq]
  exact asciiLower_eq_nonletter hd c

theorem isDigitC_asciiLower (c : Char) : isDigitC (asciiLower c) = isDigitC c := by
  unfold isDigitC
  rw [asciiLower_toNat]
  by_cases h : 65 ≤ c.toNat ∧ c.toNat ≤ 90
  · rw [if_pos h]
    apply Bool.eq_iff_iff.mpr
    simp only [Bool.and_eq_true, decide_eq_true_eq]
    omega
  · rw [if_neg h]

theorem isAlphaC_asciiLower (c : Char) : isAlphaC (asciiLower c) = isAlphaC c := by
  unfold isAlphaC isUpperC isLowerC
  rw [asciiLower_toNat]
  by_cases h : 65 ≤ c.toNat ∧ c.toNat ≤ 90
  · rw [if_pos h]
    apply Bool.eq_iff_iff.mpr
    simp only [Bool.or_eq_true, Bool.and_eq_true, decide_eq_true_eq]
    omega
  · rw [if_neg h]

theorem isAlnumC_asciiLower (c : Char) : isAlnumC (asciiLower c) = isAlnumC c := by
  unfold isAlnumC
  rw [isAlphaC_asciiLower, isDigitC_asciiLower]

theorem isHexC_asciiLower (c : Char) : isHexC (asciiLower c) = isHexC c := by
  unfold isHexC isDigitC
  rw [asciiLower_toNat]
  by_cases h : 65 ≤ c.toNat ∧ c.toNat ≤ 90
  · rw [if_pos h]
    apply Bool.eq_iff_iff.mpr
    simp only [Bool.or_eq_true, Bool.and_eq_true, decide_eq_true_eq]
    omega
  · rw [if_neg h]

theorem isAlnumDashC_asciiLower (c : Char) :
    isAlnumDashC (asciiLower c) = isAlnumDashC c := by
  unfold isAlnumDashC
  rw [isAlnumC_asciiLower, asciiLower_beq_nonletter (by constructor <;> · intro h; revert h; decide)]

theorem lowerChar_eq_ascii {c : Char} (h : c.toNat ≤ 127) :
    lowerChar c = asciiLower c := by
  unfold lowerChar asciiLower
  by_cases hu : (65 ≤ c.toNat && c.toNat ≤ 90) = true
  · rw [if_pos hu, if_pos hu]
  · rw [if_neg hu, if_neg hu, if_neg (show ¬(c.toNat = 0x212A) by omega)]

theorem lowerChar_of_plain {c : Char} (h : ¬(65 ≤ c.toNat ∧ c.toNat ≤ 90))
    (hk : ¬(c.toNat = 0x212A)) : lowerChar c = c := by
  unfold lowerChar
  rw [if_neg (by simp only [Bool.and_eq_true, decide_eq_true_eq]; omega), if_neg hk]

theorem lowerChar_idem (c : Char) : lowerChar (lowerChar c) = lowerChar c := by
  by_cases ha : c.toNat ≤ 127
  · have ha2 : (asciiLower c).toNat ≤ 127 := by
      rw [asciiLower_toNat]
      by_cases hu : 65 ≤ c.toNat ∧ c.toNat ≤ 90
      · rw [if_pos hu]; omega
      · rw [if_neg hu]; omega
    rw [lowerChar_eq_ascii ha, lowerChar_eq_ascii ha2, asciiLower_idem]
  · by_cases hk : c.toNat = 0x212A
    · have h1 : lowerChar c = 'k' := by
        unfold lowerChar
        rw [if_neg (by simp only [Bool.and_eq_true, decide_eq_true_eq]; omega), if_pos hk]
      rw [h1]
      decide
    · have h1 : lowerChar c = c := lowerChar_of_plain (by omega) hk
      rw [h1, h1]

theorem lowerStr_idem (s : List Char) : lowerStr (lowerStr s) = lowerStr s := by
  unfold lowerStr
  rw [List.map_map]
  exact List.map_congr_left (fun c _ => lowerChar_idem c)

theorem lowerStr_eq_ascii {l : List Char} (h : ∀ c ∈ l, c.toNat ≤ 127) :
    lowerStr l = asciiLowerStr l := by
  unfold lowerStr asciiLowerStr
  exact List.map_congr_left (fun c hc => lowerChar_eq_ascii (h c hc))

/-! ## Bounds and ordering of the URL matcher -/

theorem runLen_le (p : Char → Bool) (l : List Char) (i : Nat) :
    runLen p l i ≤ l.length - i := by
  have h1 : ((l.drop i).takeWhile p).length ≤ (l.drop i).length :=
    (List.takeWhile_sublist p).length_le
  simpa [runLen] using h1

theorem groupEndsGo_mem (l : List Char) :
    ∀ fuel i q, q ∈ groupEndsGo l fuel i → i + 2 ≤ q ∧ q ≤ l.length
  | 0, _, _, h => absurd h (List.not_mem_nil _)
  | fuel + 1, i, q, h => by
    rw [groupEndsGo] at h
    by_cases hg : (0 < runLen isWordDashC l i && (l[i + runLen isWordDashC l i]? == some '.')) = true
    · rw [if_pos hg] at h
      have hr : 0 < runLen isWordDashC l i := by
        have := (Bool.and_eq_true ..).mp hg
        exact of_decide_eq_true this.1
      have hdot : l[i + runLen isWordDashC l i]? = some '.' := by
        have := (Bool.and_eq_true ..).mp hg
        exact beq_iff_eq.mp this.2
      have hlt : i + runLen isWordDashC l i < l.length :=
        (List.getElem?_eq_some.mp hdot).1
      rcases List.mem_cons.mp h with h | h
      · omega
      · have := groupEndsGo_mem l fuel (i + runLen isWordDashC l i + 1) q h
        omega
    · rw [if_neg hg] at h
      exact absurd h (List.not_mem_nil _)

theorem tryTail_bounds {l : List Char} {q e : Nat} (h : tryTail l q = some e) :
    q + 2 ≤ e ∧ e ≤ l.length := by
  unfold tryTail at h
  by_cases hm : 2 ≤ runLen isAlphaC l q
  · rw [if_pos hm] at h
    have hrun : runLen isAlphaC l q ≤ l.length - q := runLen_le ..
    by_cases hs : (l[q + runLen isAlphaC l q]? == some '/') = true
    · rw [if_pos hs] at h
      have hlt : q + runLen isAlphaC l q < l.length :=
        (List.getElem?_eq_some.mp (beq_iff_eq.mp hs)).1
      have hrun2 : runLen (fun c => !isSpaceC c) l (q + runLen isAlphaC l q + 1) ≤
          l.length - (q + runLen isAlphaC l q + 1) := runLen_le ..
      have he := Option.some.inj h
      omega
    · rw [if_neg hs] at h
      have he := Option.some.inj h
      omega
  · rw [if_neg (by simpa using hm)] at h
    exact absurd h (Option.noConfusion)

theorem pickGreedy_exists {l : List Char} {e : Nat} :
    ∀ {qs : List Nat}, pickGreedy l qs = some e → ∃ q ∈ qs, tryTail l q = some e
  | [], h => absurd h (Option.noConfusion)
  | q :: rest, h => by
    rw [pickGreedy] at h
    rcases he : pickGreedy l rest with _ | e'
    · rw [he] at h
      exact ⟨q, List.mem_cons_self .., h⟩
    · rw [he] at h
      have he2 : e' = e := Option.some.inj h
      rcases pickGreedy_exists (he.trans (by rw [he2])) with ⟨q', hq', ht⟩
      exact ⟨q', List.mem_cons_of_mem _ hq', ht⟩

theorem matchAt_bounds {l : List Char} {i e : Nat} (h : matchAt l i = some e) :
    i < e ∧ e ≤ l.length := by
  unfold matchAt at h
  rcases pickGreedy_exists h with ⟨q, hq, ht⟩
  have h1 := groupEndsGo_mem l (l.length + 1) (i + schemeLen l i) q hq
  have h2 := tryTail_bounds ht
  omega

theorem finditerGo_mem (l : List Char) :
    ∀ fuel i, ∀ m ∈ finditerGo l fuel i, i ≤ m.1 ∧ m.1 < m.2 ∧ m.2 ≤ l.length
  | 0, _, _, h => absurd h (List.not_mem_nil _)
  | fuel + 1, i, m, h => by
    rw [finditerGo] at h
    by_cases hi : l.length ≤ i
    · rw [if_pos hi] at h
      exact absurd h (List.not_mem_nil _)
    · rw [if_neg hi] at h
      rcases he : matchAt l i with _ | e
      · rw [he] at h
        have := finditerGo_mem l fuel (i + 1) m h
        omega
      · rw [he] at h
        rcases List.mem_cons.mp h with h | h
        · have := matchAt_bounds he
          rw [h]
          simp only
          omega
        · have := finditerGo_mem l fuel (max e (i + 1)) m h
          omega

theorem finditerGo_pairwise (l : List Char) :
    ∀ fuel i, List.Pairwise (fun a b => a.2 ≤ b.1) (finditerGo l fuel i)
  | 0, _ => List.Pairwise.nil
  | fuel + 1, i => by
    rw [finditerGo]
    by_cases hi : l.length ≤ i
    · rw [if_pos hi]
      exact List.Pairwise.nil
    · rw [if_neg hi]
      rcases he : matchAt l i with _ | e
      · exact finditerGo_pairwise l fuel (i + 1)
      · refine List.Pairwise.cons ?_ (finditerGo_pairwise l fuel (max e (i + 1)))
        intro m hm
        have := (finditerGo_mem l fuel (max e (i + 1)) m hm).1
        simp only
        omega

theorem finditer_mem {l : List Char} {m : Nat × Nat} (h : m ∈ finditer l) :
    m.1 < m.2 ∧ m.2 ≤ l.length :=
  (finditerGo_mem l (l.length + 1) 0 m h).2

theorem finditer_pairwise (l : List Char) :
    List.Pairwise (fun a b => a.2 ≤ b.1) (finditer l) :=
  finditerGo_pairwise l (l.length + 1) 0

/-! ## Structure of `extract_urls` output -/

theorem mem_extract_urls {text : List Char} {wl : List (List Char)}
    {u : List Char} {s e : Nat} (h : (u, s, e) ∈ extract_urls text wl) :
    (s, e) ∈ finditer text ∧ u = (text.drop s).take (e - s) ∧
      is_valid_domain (candNetloc u) wl = true := by
  unfold extract_urls at h
  rcases List.mem_filterMap.mp h with ⟨⟨a, b⟩, hse, hg⟩
  simp only at hg
  by_cases hv : is_valid_domain (candNetloc ((text.drop a).take (b - a))) wl = true
  · rw [if_pos hv] at hg
    have h1 := Option.some.inj hg
    have h2 : a = s := congrArg (fun t => t.2.1) h1
    have h3 : b = e := congrArg (fun t => t.2.2) h1
    have h4 : (text.drop a).take (b - a) = u := congrArg Prod.fst h1
    subst h2
    subst h3
    refine ⟨hse, h4.symm, ?_⟩
    rw [h4] at hv
    exact hv
  · rw [if_neg hv] at hg
    exact absurd hg (Option.noConfusion)

theorem pairwise_filterMap {α β : Type} (R : α → α → Prop) (S : β → β → Prop)
    (f : α → Option β) (hf : ∀ a b x y, f a = some x → f b = some y → R a b → S x y) :
    ∀ l : List α, List.Pairwise R l → List.Pairwise S (l.filterMap f)
  | [], _ => List.Pairwise.nil
  | a :: l, h => by
    rw [List.filterMap_cons]
    rcases ha : f a with _ | b
    · exact pairwise_filterMap R S f hf l h.of_cons
    · refine List.Pairwise.cons ?_ (pairwise_filterMap R S f hf l h.of_cons)
      intro y hy
      rcases List.mem_filterMap.mp hy with ⟨a', ha', hfa'⟩
      exact hf a a' b y ha hfa' (List.rel_of_pairwise_cons h ha')

theorem extract_urls_pairwise (text : List Char) (wl : List (List Char)) :
    List.Pairwise (fun a b => a.2.2 ≤ b.2.1) (extract_urls text wl) := by
  unfold extract_urls
  refine pairwise_filterMap (fun a b => a.2 ≤ b.1) _ _ ?_ _ (finditer_pairwise text)
  intro a b x y hx hy hab
  by_cases hva : is_valid_domain (candNetloc ((text.drop a.1).take (a.2 - a.1))) wl = true
  · by_cases hvb : is_valid_domain (candNetloc ((text.drop b.1).take (b.2 - b.1))) wl = true
    · rw [if_pos hva] at hx
      rw [if_pos hvb] at hy
      have h1 : x.2.2 = a.2 := (congrArg (fun t => t.2.2) (Option.some.inj hx)).symm
      have h2 : y.2.1 = b.1 := (congrArg (fun t => t.2.1) (Option.some.inj hy)).symm
      rw [h1, h2]
      exact hab
    · rw [if_neg hvb] at hy
      exact absurd hy (Option.noConfusion)
  · rw [if_neg hva] at hx
    exact absurd hx (Option.noConfusion)

theorem finditerGo_eq_nil (l : List Char)
    (h : ∀ i, i < l.length → matchAt l i = none) :
    ∀ fuel i, finditerGo l fuel i = []
  | 0, _ => rfl
  | fuel + 1, i => by
    rw [finditerGo]
    by_cases hi : l.length ≤ i
    · rw [if_pos hi]
    · rw [if_neg hi, h i (by omega)]
      exact finditerGo_eq_nil l h fuel (i + 1)

/-! ## The rewrite loop skips unchanged conversions -/

theorem foldl_rewriteStep_skip (convert : List Char → List Char) :
    ∀ (ms : List (List Char × Nat × Nat)) (acc : List Char × Int),
      (∀ m ∈ ms, convert m.1 = m.1) → ms.foldl (rewriteStep convert) acc = acc
  | [], _, _ => rfl
  | m :: rest, acc, h => by
    have hm : convert m.1 = m.1 := h m (List.mem_cons_self ..)
    have hstep : rewriteStep convert acc m = acc := by
      simp only [rewriteStep]
      rw [if_pos hm]
    show List.foldl _ (rewriteStep convert acc m) rest = acc
    rw [hstep]
    exact foldl_rewriteStep_skip convert rest acc
      (fun x hx => h x (List.mem_cons_of_mem _ hx))

/-! ## The rewrite loop touches only the matched spans -/

theorem pyTake_ofNat (l : List Char) (n : Nat) : pyTake l (n : Int) = l.take n := by
  unfold pyTake pySliceIdx
  rw [if_neg (by omega)]
  rw [Int.toNat_natCast]
  rcases le_total n l.length with h | h
  · rw [min_eq_left h]
  · rw [min_eq_right h, List.take_length]
    exact (List.take_of_length_le h).symm

theorem pyDrop_ofNat (l : List Char) (n : Nat) : pyDrop l (n : Int) = l.drop n := by
  unfold pyDrop pySliceIdx
  rw [if_neg (by omega)]
  rw [Int.toNat_natCast]
  rcases le_total n l.length with h | h
  · rw [min_eq_left h]
  · rw [min_eq_right h, List.drop_length]
    exact (List.drop_of_length_le h).symm

theorem drop_split_at (text : List Char) {p s e : Nat} {u : List Char}
    (hps : p ≤ s) (hse : s ≤ e) (hsub : (text.drop s).take (e - s) = u) :
    text.drop p = (text.drop p).take (s - p) ++ (u ++ text.drop e) := by
  conv_lhs => rw [← List.take_append_drop (s - p) (text.drop p)]
  have h1 : (text.drop p).drop (s - p) = text.drop s := by
    rw [List.drop_drop]
    congr 1
    omega
  have h2 : text.drop s = u ++ text.drop e := by
    conv_lhs => rw [← List.take_append_drop (e - s) (text.drop s)]
    rw [hsub, List.drop_drop]
    congr 2
    omega
  rw [h1, h2]

theorem foldl_rewriteStep_segs (text : List Char) (convert : List Char → List Char) :
    ∀ (ms : List (List Char × Nat × Nat)) (A : List Char) (p : Nat),
      (∀ m ∈ ms, p ≤ m.2.1 ∧ m.2.1 < m.2.2 ∧ m.2.2 ≤ text.length ∧
        (text.drop m.2.1).take (m.2.2 - m.2.1) = m.1) →
      List.Pairwise (fun a b => a.2.2 ≤ b.2.1) ms →
      (ms.foldl (rewriteStep convert)
          (A ++ text.drop p, (A.length : Int) - (p : Int))).1 =
        A ++ segsFrom text convert p ms
  | [], A, p, _, _ => by
    simp [segsFrom]
  | (u, s, e) :: rest, A, p, hm, hpw => by
    obtain ⟨hps, hse, hel, hsub⟩ := hm (u, s, e) (List.mem_cons_self ..)
    dsimp only at hps hse hel hsub
    have hulen : u.length = e - s := by
      rw [← hsub, List.length_take, List.length_drop]
      omega
    have hseg : ((text.drop p).take (s - p)).length = s - p := by
      rw [List.length_take, List.length_drop]
      omega
    have hsplit := drop_split_at text hps (le_of_lt hse) hsub
    have hrest : ∀ m ∈ rest, e ≤ m.2.1 ∧ m.2.1 < m.2.2 ∧ m.2.2 ≤ text.length ∧
        (text.drop m.2.1).take (m.2.2 - m.2.1) = m.1 := by
      intro m hm'
      have base := hm m (List.mem_cons_of_mem _ hm')
      exact ⟨List.rel_of_pairwise_cons hpw hm', base.2.1, base.2.2⟩
    rw [List.foldl_cons]
    by_cases hcu : convert u = u
    · have hstep : rewriteStep convert (A ++ text.drop p, (A.length : Int) - (p : Int))
          (u, s, e) = (A ++ text.drop p, (A.length : Int) - (p : Int)) := by
        simp only [rewriteStep]
        rw [if_pos hcu]
      rw [hstep]
      have hA' : A ++ text.drop p =
          (A ++ ((text.drop p).take (s - p) ++ u)) ++ text.drop e := by
        conv_lhs => rw [hsplit]
        simp [List.append_assoc]
      have hoff : (A.length : Int) - (p : Int) =
          (((A ++ ((text.drop p).take (s - p) ++ u)).length : Int) - (e : Int)) := by
        simp only [List.length_append, hseg, hulen]
        push_cast
        omega
      rw [hA', hoff, foldl_rewriteStep_segs text convert rest
        (A ++ ((text.drop p).take (s - p) ++ u)) e hrest hpw.of_cons]
      simp only [segsFrom]
      rw [if_pos hcu]
      simp [List.append_assoc]
    · have hcast1 : (s : Int) + ((A.length : Int) - (p : Int)) =
          ((A.length + (s - p) : Nat) : Int) := by
        push_cast
        omega
      have hcast2 : (e : Int) + ((A.length : Int) - (p : Int)) =
          ((A.length + (e - p) : Nat) : Int) := by
        push_cast
        omega
      have htake : pyTake (A ++ text.drop p) ((s : Int) + ((A.length : Int) - (p : Int))) =
          A ++ (text.drop p).take (s - p) := by
        rw [hcast1, pyTake_ofNat]
        conv_lhs => rw [hsplit]
        rw [show A ++ ((text.drop p).take (s - p) ++ (u ++ text.drop e)) =
          (A ++ (text.drop p).take (s - p)) ++ (u ++ text.drop e) from
          (List.append_assoc ..).symm]
        rw [show A.length + (s - p) = (A ++ (text.drop p).take (s - p)).length from by
          rw [List.length_append, hseg]]
        exact List.take_left ..
      have hdrop : pyDrop (A ++ text.drop p) ((e : Int) + ((A.length : Int) - (p : Int))) =
          text.drop e := by
        rw [hcast2, pyDrop_ofNat]
        conv_lhs => rw [hsplit]
        rw [show A ++ ((text.drop p).take (s - p) ++ (u ++ text.drop e)) =
          ((A ++ (text.drop p).take (s - p)) ++ u) ++ text.drop e from by
          simp [List.append_assoc]]
        rw [show A.length + (e - p) = ((A ++ (text.drop p).take (s - p)) ++ u).length from by
          simp only [List.length_append, hseg, hulen]
          omega]
        exact List.drop_left ..
      have hstep : rewriteStep convert (A ++ text.drop p, (A.length : Int) - (p : Int))
          (u, s, e) =
          ((A ++ ((text.drop p).take (s - p) ++ convert u)) ++ text.drop e,
            (((A ++ ((text.drop p).take (s - p) ++ convert u)).length : Int) - (e : Int))) := by
        simp only [rewriteStep]
        rw [if_neg hcu]
        simp only [htake, hdrop, Prod.mk.injEq]
        constructor
        · simp [List.append_assoc]
        · simp only [List.length_append, hseg, hulen]
          push_cast
          omega
      rw [hstep, foldl_rewriteStep_segs text convert rest
        (A ++ ((text.drop p).take (s - p) ++ convert u)) e hrest hpw.of_cons]
      simp only [segsFrom]
      rw [if_neg hcu]
      simp [List.append_assoc]

theorem take_join (text : List Char) {s1 e1 s2 : Nat} {u1 : List Char}
    (hs : s1 ≤ e1) (he : e1 ≤ s2) (_hlen : s2 ≤ text.length)
    (hu : (text.drop s1).take (e1 - s1) = u1) :
    text.take s1 ++ (u1 ++ (text.drop e1).take (s2 - e1)) = text.take s2 := by
  have h1 : text.take s2 = text.take s1 ++ (text.drop s1).take (s2 - s1) := by
    rw [← List.take_add]
    congr 1
    omega
  have h2 : (text.drop s1).take (s2 - s1) =
      (text.drop s1).take (e1 - s1) ++ ((text.drop s1).drop (e1 - s1)).take (s2 - e1) := by
    rw [← List.take_add]
    congr 1
    omega
  have h3 : (text.drop s1).drop (e1 - s1) = text.drop e1 := by
    rw [List.drop_drop]
    congr 1
    omega
  rw [h1, h2, h3, hu]

/-! ## The split of a list on a separator -/

theorem splitOnChar_ne_nil (sep : Char) : ∀ l : List Char, splitOnChar sep l ≠ []
  | [] => by
    simp [splitOnChar]
  | c :: rest => by
    rw [splitOnChar]
    by_cases hc : c == sep
    · rw [if_pos hc]
      simp
    · rw [if_neg hc]
      simp

theorem splitOnChar_eq_cons (sep : Char) (l : List Char) :
    ∃ hd tl, splitOnChar sep l = hd :: tl :=
  List.exists_cons_of_ne_nil (splitOnChar_ne_nil sep l)

theorem splitOnChar_cons_sep (sep : Char) (b : List Char) :
    splitOnChar sep (sep :: b) = [] :: splitOnChar sep b := by
  rw [splitOnChar, if_pos (by simp)]

theorem splitOnChar_cons_ne (sep c : Char) (h : ¬(c = sep)) (b : List Char)
    {hd : List Char} {tl : List (List Char)} (hb : splitOnChar sep b = hd :: tl) :
    splitOnChar sep (c :: b) = (c :: hd) :: tl := by
  rw [splitOnChar, if_neg (by simpa using h), hb]
  rfl

theorem splitOnChar_no_sep (sep : Char) :
    ∀ a : List Char, (∀ c ∈ a, ¬(c = sep)) → splitOnChar sep a = [a]
  | [], _ => rfl
  | c :: rest, ha => by
    have hrest := splitOnChar_no_sep sep rest (fun x hx => ha x (List.mem_cons_of_mem _ hx))
    exact splitOnChar_cons_ne sep c (ha c (List.mem_cons_self ..)) rest hrest

theorem splitOnChar_append_sep (sep : Char) :
    ∀ a : List Char, ∀ b : List Char, (∀ c ∈ a, ¬(c = sep)) →
      splitOnChar sep (a ++ sep :: b) = a :: splitOnChar sep b
  | [], b, _ => splitOnChar_cons_sep sep b
  | c :: rest, b, ha => by
    have hrest := splitOnChar_append_sep sep rest b
      (fun x hx => ha x (List.mem_cons_of_mem _ hx))
    rw [List.cons_append]
    exact splitOnChar_cons_ne sep c (ha c (List.mem_cons_self ..)) _ hrest

theorem splitOnChar_append_no_sep (sep : Char) :
    ∀ a : List Char, ∀ b : List Char, (∀ c ∈ a, ¬(c = sep)) →
      ∀ {hd : List Char} {tl : List (List Char)}, splitOnChar sep b = hd :: tl →
      splitOnChar sep (a ++ b) = (a ++ hd) :: tl
  | [], b, _, hd, tl, hb => by simpa using hb
  | c :: rest, b, ha, hd, tl, hb => by
    have hrest := splitOnChar_append_no_sep sep rest b
      (fun x hx => ha x (List.mem_cons_of_mem _ hx)) hb
    rw [List.cons_append]
    exact splitOnChar_cons_ne sep c (ha c (List.mem_cons_self ..)) _ hrest

/-! ## Facts about `stripNl` -/

theorem getLastD_irrel {l : List Char} (h : l ≠ []) (d d' : Char) :
    l.getLastD d = l.getLastD d' := by
  rw [List.getLastD_eq_getLast?, List.getLastD_eq_getLast?, List.getLast?_eq_getLast l h]
  rfl

theorem stripNl_cons_of_ne_nil (c : Char) {rest : List Char} (h : rest ≠ []) :
    stripNl (c :: rest) = c :: stripNl rest := by
  unfold stripNl
  rw [List.getLastD_cons, getLastD_irrel h c 'x']
  rw [show (c :: rest).dropLast = c :: rest.dropLast from
    List.dropLast_append_of_ne_nil [c] h]
  by_cases hc : rest.getLastD 'x' == '\n'
  · rw [if_pos hc, if_pos hc]
  · rw [if_neg hc, if_neg hc]

theorem stripNl_single (c : Char) : stripNl [c] = if c == '\n' then [] else [c] := by
  unfold stripNl
  by_cases hc : c == '\n'
  · rw [if_pos (by simpa [List.getLastD] using hc), if_pos hc]
    rfl
  · rw [if_neg (by simpa [List.getLastD] using hc), if_neg hc]

theorem stripNl_cons_shape (c : Char) (rest : List Char) :
    stripNl (c :: rest) = [] ∨ ∃ X, stripNl (c :: rest) = c :: X := by
  rcases hr : rest with _ | ⟨x, xs⟩
  · rw [stripNl_single]
    by_cases hc : c == '\n'
    · rw [if_pos hc]
      exact Or.inl rfl
    · rw [if_neg hc]
      exact Or.inr ⟨[], rfl⟩
  · rw [stripNl_cons_of_ne_nil c (by simp)]
    exact Or.inr ⟨_, rfl⟩

theorem stripNl_cons_ne_nl {c : Char} (hc : ¬(c = '\n')) (rest : List Char) :
    stripNl (c :: rest) = c :: stripNl rest := by
  rcases hr : rest with _ | ⟨x, xs⟩
  · rw [stripNl_single, if_neg (by simpa using hc)]
    rfl
  · exact stripNl_cons_of_ne_nil c (by simp)

theorem stripNl_append (a : List Char) {b : List Char} (hb : b ≠ []) :
    stripNl (a ++ b) = a ++ stripNl b := by
  unfold stripNl
  rw [List.dropLast_append_of_ne_nil a hb]
  rw [show (a ++ b).getLastD 'x' = b.getLastD 'x' from by
    rw [List.getLastD_eq_getLast?, List.getLastD_eq_getLast?,
      List.getLast?_append_of_ne_nil a hb]]
  by_cases hc : b.getLastD 'x' == '\n'
  · rw [if_pos hc, if_pos hc]
  · rw [if_neg hc, if_neg hc]

theorem stripNl_of_last_ne_nl {l : List Char} (h : ¬(l.getLastD 'x' = '\n')) :
    stripNl l = l := by
  unfold stripNl
  rw [if_neg (by simpa using h)]

/-! ## The domain-format pattern equals its dot-split characterisation -/

theorem alpha_ne_dot {c : Char} (h : isAlphaC c = true) : ¬(c = '.') := by
  intro hc
  rw [hc] at h
  exact absurd h (by decide)

theorem alnumDash_ne_dot {c : Char} (h : isAlnumDashC c = true) : ¬(c = '.') := by
  intro hc
  rw [hc] at h
  exact absurd h (by decide)

theorem all_false_of_mem {p : Char → Bool} {l : List Char} {x : Char}
    (hx : x ∈ l) (hp : p x = false) : l.all p = false := by
  rcases h : l.all p with _ | _
  · rfl
  · rw [List.all_eq_true] at h
    rw [h x hx] at hp
    exact absurd hp (by simp)

theorem alphaLabelOk_false_of_mem {d : List Char} {x : Char}
    (hx : x ∈ d) (hna : isAlphaC x = false) : alphaLabelOk d = false := by
  unfold alphaLabelOk
  rw [all_false_of_mem hx hna]
  simp

theorem claimedLabelOk_false_of_mem {d : List Char} {x : Char}
    (hx : x ∈ d) (hna : isAlnumDashC x = false) : claimedLabelOk d = false := by
  unfold claimedLabelOk
  rw [all_false_of_mem hx hna]
  simp

theorem getLastD_mem {l : List Char} (h : l ≠ []) (d : Char) : l.getLastD d ∈ l := by
  rw [List.getLastD_eq_getLast?, List.getLast?_eq_getLast l h]
  exact List.getLast_mem h

theorem stripNl_of_all_class {p : Char → Bool} {l : List Char}
    (hall : ∀ c ∈ l, p c = true) (hnl : p '\n' = false) : stripNl l = l := by
  apply stripNl_of_last_ne_nl
  rcases hl : l with _ | ⟨c, cs⟩
  · decide
  · subst hl
    intro hcon
    have hm : (c :: cs).getLastD 'x' ∈ (c :: cs) := getLastD_mem (by simp) 'x'
    rw [hcon] at hm
    rw [hall '\n' hm] at hnl
    exact absurd hnl (by simp)

theorem dropWhile_head_false {p : Char → Bool} :
    ∀ {l : List Char} {x : Char} {xs : List Char},
      l.dropWhile p = x :: xs → p x = false
  | [], x, xs, h => by simp at h
  | c :: rest, x, xs, h => by
    rw [List.dropWhile_cons] at h
    by_cases hc : p c = true
    · rw [if_pos hc] at h
      exact dropWhile_head_false h
    · rw [if_neg hc] at h
      have h1 := (List.cons.inj h).1
      rw [← h1]
      simpa using hc

theorem tldGo_not_dot {x : Char} (hx : ¬(x = '.')) (xs : List Char) :
    ∀ fuel, tldGroupsGo fuel (x :: xs) = false
  | 0 => rfl
  | fuel + 1 => by rw [tldGroupsGo, if_neg hx]

theorem tldSplitForm_strip_nil {t : List Char} (h : stripNl t = []) :
    tldSplitForm t = false := by
  unfold tldSplitForm
  rw [h]
  decide

theorem tldSplitForm_dot {t X : List Char} (h : stripNl t = '.' :: X) :
    tldSplitForm t = (splitOnChar '.' X).all alphaLabelOk := by
  unfold tldSplitForm
  rw [h, splitOnChar_cons_sep]
  rcases splitOnChar_eq_cons '.' X with ⟨hd, tl, hX⟩
  rw [hX]
  simp

theorem tldSplitForm_head_ne_dot {t : List Char} {c : Char} (hc : ¬(c = '.'))
    {X : List Char} (h : stripNl t = c :: X) : tldSplitForm t = false := by
  unfold tldSplitForm
  rw [h]
  rcases splitOnChar_eq_cons '.' X with ⟨hd, tl, hX⟩
  rw [splitOnChar_cons_ne '.' c hc X hX]
  simp

/-- The tail matcher agrees with the dot-split characterisation. -/
theorem tldGo_eq_splitForm :
    ∀ (fuel : Nat) (t : List Char), t.length < fuel →
      tldGroupsGo fuel t = tldSplitForm t
  | 0, _, h => absurd h (by omega)
  | fuel + 1, [], _ => by
    rw [tldGroupsGo]
    decide
  | fuel + 1, c :: rest, hlen => by
    by_cases hc : c = '.'
    case neg =>
      rw [tldGroupsGo, if_neg hc]
      symm
      rcases stripNl_cons_shape c rest with hs | ⟨X, hs⟩
      · exact tldSplitForm_strip_nil hs
      · exact tldSplitForm_head_ne_dot hc hs
    case pos =>
      subst hc
      rw [tldGroupsGo, if_pos rfl]
      obtain ⟨L, hL⟩ : ∃ L, rest.takeWhile isAlphaC = L := ⟨_, rfl⟩
      obtain ⟨R, hR⟩ : ∃ R, rest.dropWhile isAlphaC = R := ⟨_, rfl⟩
      have hdecomp : L ++ R = rest := by
        rw [← hL, ← hR]
        simp
      have hallm : ∀ x ∈ L, isAlphaC x = true := by
        intro x hx
        rw [← hL] at hx
        exact List.mem_takeWhile_imp hx
      have hall : L.all isAlphaC = true := by
        rw [List.all_eq_true]
        exact hallm
      have hnd : ∀ x ∈ L, ¬(x = '.') := fun x hx => alpha_ne_dot (hallm x hx)
      have hstripL : stripNl L = L := stripNl_of_all_class hallm (by decide)
      rw [hL, hR]
      rcases hRc : R with _ | ⟨x, xs⟩
      · -- no tail after the letters: the whole of `rest` is the letter run
        subst hRc
        have hstrip : stripNl ('.' :: rest) = '.' :: L := by
          rw [stripNl_cons_ne_nl (by decide), ← hdecomp, List.append_nil, hstripL]
        rw [tldSplitForm_dot hstrip, splitOnChar_no_sep '.' L hnd]
        simp [alphaLabelOk, hall]
      · subst hRc
        have hx : isAlphaC x = false := dropWhile_head_false hR
        by_cases hnl : (x :: xs : List Char) = ['\n']
        · -- the tail is exactly a trailing newline: accepted by `$`
          rw [hnl]
          have hstrip : stripNl ('.' :: rest) = '.' :: L := by
            rw [stripNl_cons_ne_nl (by decide), ← hdecomp, hnl,
              stripNl_append L (by simp : ¬((['\n'] : List Char) = [])),
              show stripNl ['\n'] = [] from by decide, List.append_nil]
          rw [tldSplitForm_dot hstrip, splitOnChar_no_sep '.' L hnd]
          simp [alphaLabelOk, hall]
        · by_cases hxd : x = '.'
          · -- the tail starts a further `.letters` group: recurse
            subst hxd
            have hstripR : stripNl ('.' :: xs) = '.' :: stripNl xs :=
              stripNl_cons_ne_nl (by decide) xs
            have hstrip : stripNl ('.' :: rest) = '.' :: (L ++ ('.' :: stripNl xs)) := by
              rw [stripNl_cons_ne_nl (by decide), ← hdecomp,
                stripNl_append L (by simp : ¬(('.' :: xs) = ([] : List Char))), hstripR]
            rw [tldSplitForm_dot hstrip, splitOnChar_append_sep '.' L _ hnd]
            have hemp1 : (('.' :: xs : List Char).isEmpty) = false := by simp
            have hemp2 : (('.' :: xs : List Char) == ['\n']) = false := by
              apply beq_eq_false_iff_ne.mpr
              intro hh
              exact absurd (List.cons.inj hh).1 (by decide)
            rw [hemp1, hemp2]
            have hlrec : ('.' :: xs : List Char).length < fuel := by
              have h1 : rest.length = L.length + ('.' :: xs : List Char).length := by
                rw [← hdecomp, List.length_append]
              have h2 : (('.' :: rest : List Char)).length < fuel + 1 := hlen
              simp only [List.length_cons] at h1 h2 ⊢
              omega
            have hrec := tldGo_eq_splitForm fuel ('.' :: xs) hlrec
            rw [tldSplitForm_dot hstripR] at hrec
            rw [hrec]
            rcases splitOnChar_eq_cons '.' (stripNl xs) with ⟨hd, tl, hXsplit⟩
            rw [hXsplit]
            simp only [List.all_cons]
            by_cases hl2 : 2 ≤ L.length
            · simp [alphaLabelOk, hall, hl2, Bool.and_assoc]
            · simp [alphaLabelOk, hl2]
          · -- the tail begins with a character that is neither dot nor letter
            have hxX : ∃ X, stripNl (x :: xs) = x :: X := by
              rcases hxs : xs with _ | ⟨y, ys⟩
              · by_cases hxnl : x = '\n'
                · subst hxnl
                  subst hxs
                  exact absurd rfl hnl
                · rw [stripNl_single, if_neg (by simpa using hxnl)]
                  exact ⟨[], rfl⟩
              · rw [stripNl_cons_of_ne_nil x (by simp)]
                exact ⟨_, rfl⟩
            obtain ⟨X, hX⟩ := hxX
            have hstrip : stripNl ('.' :: rest) = '.' :: (L ++ (x :: X)) := by
              rw [stripNl_cons_ne_nl (by decide), ← hdecomp,
                stripNl_append L (by simp : ¬((x :: xs) = ([] : List Char))), hX]
            rcases splitOnChar_eq_cons '.' X with ⟨hd, tl, hXsplit⟩
            have hsplit2 : splitOnChar '.' (L ++ (x :: X)) = (L ++ (x :: hd)) :: tl :=
              splitOnChar_append_no_sep '.' L _ hnd
                (splitOnChar_cons_ne '.' x hxd X hXsplit)
            rw [tldSplitForm_dot hstrip, hsplit2]
            simp only [List.all_cons]
            rw [alphaLabelOk_false_of_mem
              (List.mem_append_right L (List.mem_cons_self ..)) hx]
            rw [tldGo_not_dot hxd xs fuel]
            have hemp2 : ((x :: xs : List Char) == ['\n']) = false :=
              beq_eq_false_iff_ne.mpr hnl
            rw [hemp2]
            simp

/-- The whole domain-format pattern agrees with the amended shape. -/
theorem domainFormatMatch_eq_spec (s : List Char) :
    domainFormatMatch s = specAmendedShape s := by
  unfold domainFormatMatch
  obtain ⟨L, hL⟩ : ∃ L, s.takeWhile isAlnumDashC = L := ⟨_, rfl⟩
  obtain ⟨R, hR⟩ : ∃ R, s.dropWhile isAlnumDashC = R := ⟨_, rfl⟩
  have hdecomp : L ++ R = s := by
    rw [← hL, ← hR]
    simp
  have hallm : ∀ x ∈ L, isAlnumDashC x = true := by
    intro x hx
    rw [← hL] at hx
    exact List.mem_takeWhile_imp hx
  have hall : L.all isAlnumDashC = true := by
    rw [List.all_eq_true]
    exact hallm
  have hnd : ∀ x ∈ L, ¬(x = '.') := fun x hx => alnumDash_ne_dot (hallm x hx)
  have hstripL : stripNl L = L := stripNl_of_all_class hallm (by decide)
  rw [hL, hR]
  rcases hLc : L with _ | ⟨c, cs⟩
  · -- the first label is empty: the pattern cannot match
    subst hLc
    simp only [List.isEmpty_nil, Bool.not_true, Bool.false_and]
    symm
    rcases hs : s with _ | ⟨c0, s'⟩
    · decide
    · have hc0 : isAlnumDashC c0 = false := by
        rcases hp : isAlnumDashC c0 with _ | _
        · rfl
        · rw [hs, List.takeWhile_cons, if_pos hp] at hL
          exact absurd hL.symm (by simp)
      unfold specAmendedShape
      rcases stripNl_cons_shape c0 s' with hsh | ⟨X, hsh⟩
      · rw [hsh]
        decide
      · rw [hsh]
        by_cases hc0d : c0 = '.'
        · subst hc0d
          rw [splitOnChar_cons_sep]
          rcases splitOnChar_eq_cons '.' X with ⟨hd, tl, hX⟩
          rw [hX]
          simp [show claimedLabelOk [] = false from by decide]
        · rcases splitOnChar_eq_cons '.' X with ⟨hd, tl, hX⟩
          rw [splitOnChar_cons_ne '.' c0 hc0d X hX]
          simp only [List.headD_cons]
          rw [claimedLabelOk_false_of_mem (List.mem_cons_self ..) hc0]
          simp
  · -- the first label is `c :: cs`
    subst hLc
    simp only [List.isEmpty_cons, Bool.not_false, Bool.true_and, List.headD_cons]
    rcases hRc : R with _ | ⟨x, xs⟩
    · -- nothing after the first label: no dot group, no match
      subst hRc
      rw [show tldGroupsMatch [] = false from rfl]
      unfold specAmendedShape
      rw [← hdecomp, List.append_nil, hstripL, splitOnChar_no_sep '.' _ hnd]
      simp
    · subst hRc
      have hx : isAlnumDashC x = false := dropWhile_head_false hR
      by_cases hnl : (x :: xs : List Char) = ['\n']
      · -- only a trailing newline after the label: still no dot group
        rw [hnl]
        rw [show tldGroupsMatch ['\n'] = false from rfl]
        unfold specAmendedShape
        rw [← hdecomp, hnl,
          stripNl_append _ (by simp : ¬((['\n'] : List Char) = [])),
          show stripNl ['\n'] = [] from by decide, List.append_nil,
          splitOnChar_no_sep '.' _ hnd]
        simp
      · by_cases hxd : x = '.'
        · -- a dot group follows: use the tail characterisation
          subst hxd
          have hstripR : stripNl ('.' :: xs) = '.' :: stripNl xs :=
            stripNl_cons_ne_nl (by decide) xs
          have htld : tldGroupsMatch ('.' :: xs) =
              (splitOnChar '.' (stripNl xs)).all alphaLabelOk := by
            unfold tldGroupsMatch
            rw [tldGo_eq_splitForm (('.' :: xs : List Char).length + 1) ('.' :: xs)
              (by omega), tldSplitForm_dot hstripR]
          rw [htld]
          unfold specAmendedShape
          rw [← hdecomp,
            stripNl_append _ (by simp : ¬(('.' :: xs : List Char) = [])), hstripR,
            splitOnChar_append_sep '.' _ _ hnd]
          rcases splitOnChar_eq_cons '.' (stripNl xs) with ⟨hd, tl, hX⟩
          rw [hX]
          simp only [List.length_cons, List.headD_cons, List.tail_cons]
          unfold claimedLabelOk
          rw [hall]
          have h2 : decide (2 ≤ tl.length + 1 + 1) = true := by
            apply decide_eq_true
            omega
          rw [h2]
          simp [Bool.and_assoc]
        · -- the tail begins with a character that is neither dot nor newline
          have hfalse : tldGroupsMatch (x :: xs) = false := by
            unfold tldGroupsMatch
            exact tldGo_not_dot hxd xs _
          rw [hfalse]
          have hxX : ∃ X, stripNl (x :: xs) = x :: X := by
            rcases hxs : xs with _ | ⟨y, ys⟩
            · by_cases hxnl : x = '\n'
              · subst hxnl
                subst hxs
                exact absurd rfl hnl
              · rw [stripNl_single, if_neg (by simpa using hxnl)]
                exact ⟨[], rfl⟩
            · rw [stripNl_cons_of_ne_nil x (by simp)]
              exact ⟨_, rfl⟩
          obtain ⟨X, hX⟩ := hxX
          unfold specAmendedShape
          rw [← hdecomp,
            stripNl_append _ (by simp : ¬((x :: xs : List Char) = [])), hX]
          rcases splitOnChar_eq_cons '.' X with ⟨hd, tl, hXsplit⟩
          rw [splitOnChar_append_no_sep '.' _ _ hnd
            (splitOnChar_cons_ne '.' x hxd X hXsplit)]
          simp only [List.headD_cons]
          rw [claimedLabelOk_false_of_mem
            (List.mem_append_right _ (List.mem_cons_self ..)) hx]
          simp

/-! ## Lower-casing invariance of the domain checks -/

theorem digit_comp_lower : isDigitC ∘ asciiLower = isDigitC :=
  funext isDigitC_asciiLower

theorem alpha_comp_lower : isAlphaC ∘ asciiLower = isAlphaC :=
  funext isAlphaC_asciiLower

theorem hex_comp_lower : isHexC ∘ asciiLower = isHexC :=
  funext isHexC_asciiLower

theorem isEmpty_asciiLowerStr (l : List Char) : (asciiLowerStr l).isEmpty = l.isEmpty := by
  cases l <;> rfl

theorem contains_lower {a : Char}
    (ha : ¬(65 ≤ a.toNat ∧ a.toNat ≤ 90) ∧ ¬(97 ≤ a.toNat ∧ a.toNat ≤ 122)) :
    ∀ l : List Char, (asciiLowerStr l).contains a = l.contains a
  | [] => rfl
  | c :: rest => by
    show (asciiLower c :: asciiLowerStr rest).contains a = _
    rw [List.contains_cons, List.contains_cons, contains_lower ha rest]
    have hbeq : (a == asciiLower c) = (a == c) := by
      apply Bool.eq_iff_iff.mpr
      rw [beq_iff_eq, beq_iff_eq]
      constructor
      · intro h
        exact ((asciiLower_eq_nonletter ha c).mp h.symm).symm
      · intro h
        exact ((asciiLower_eq_nonletter ha c).mpr h.symm).symm
    rw [hbeq]

theorem splitOnChar_map_lower (sep : Char)
    (hsep : ¬(65 ≤ sep.toNat ∧ sep.toNat ≤ 90) ∧ ¬(97 ≤ sep.toNat ∧ sep.toNat ≤ 122)) :
    ∀ l : List Char, splitOnChar sep (asciiLowerStr l) = (splitOnChar sep l).map asciiLowerStr
  | [] => rfl
  | c :: rest => by
    show splitOnChar sep (asciiLower c :: asciiLowerStr rest) =
      (splitOnChar sep (c :: rest)).map asciiLowerStr
    by_cases hc : c = sep
    · rw [hc]
      rw [show asciiLower sep = sep from (asciiLower_eq_nonletter hsep sep).mpr rfl]
      rw [splitOnChar_cons_sep, splitOnChar_cons_sep, List.map_cons]
      rw [splitOnChar_map_lower sep hsep rest]
      rfl
    · have hlc : ¬(asciiLower c = sep) := fun hh => hc ((asciiLower_eq_nonletter hsep c).mp hh)
      rcases splitOnChar_eq_cons sep rest with ⟨hd, tl, hr⟩
      rw [splitOnChar_cons_ne sep c hc rest hr]
      have hr' : splitOnChar sep (asciiLowerStr rest) = asciiLowerStr hd :: tl.map asciiLowerStr := by
        rw [splitOnChar_map_lower sep hsep rest, hr]
        rfl
      rw [splitOnChar_cons_ne sep (asciiLower c) hlc (asciiLowerStr rest) hr']
      rfl

theorem getLastD_lower (c : Char) (cs : List Char) :
    (asciiLowerStr (c :: cs)).getLastD 'x' = asciiLower ((c :: cs).getLastD 'x') := by
  show ((c :: cs).map asciiLower).getLastD 'x' = _
  rw [List.getLastD_eq_getLast?, List.getLastD_eq_getLast?, List.getLast?_map]
  rw [List.getLast?_eq_getLast (c :: cs) (by simp)]
  rfl

theorem getLastD_lower_parts (a : List Char) (rest : List (List Char)) (d : List Char) :
    ((a :: rest).map asciiLowerStr).getLastD d = asciiLowerStr ((a :: rest).getLastD d) := by
  rw [List.getLastD_eq_getLast?, List.getLastD_eq_getLast?, List.getLast?_map]
  rw [List.getLast?_eq_getLast (a :: rest) (by simp)]
  rfl

theorem stripNl_lower (l : List Char) : stripNl (asciiLowerStr l) = asciiLowerStr (stripNl l) := by
  rcases l with _ | ⟨c, cs⟩
  · rfl
  · unfold stripNl
    rw [getLastD_lower c cs]
    rw [asciiLower_beq_nonletter (by constructor <;> · intro h; revert h; decide)]
    by_cases hc : ((c :: cs).getLastD 'x' == '\n') = true
    · rw [if_pos hc, if_pos hc]
      show (asciiLowerStr (c :: cs)).dropLast = asciiLowerStr ((c :: cs).dropLast)
      unfold asciiLowerStr
      rw [List.map_dropLast]
    · rw [if_neg hc, if_neg hc]

theorem asciiLowerStr_of_all_digits {p : List Char} (h : p.all isDigitC = true) :
    asciiLowerStr p = p := by
  rw [List.all_eq_true] at h
  unfold asciiLowerStr
  conv_rhs => rw [← List.map_id p]
  apply List.map_congr_left
  intro c hc
  show asciiLower c = c
  apply asciiLower_of_not_upper
  have hd := h c hc
  unfold isDigitC at hd
  simp only [Bool.and_eq_true, decide_eq_true_eq] at hd
  omega

theorem all_digits_lower (p : List Char) :
    (asciiLowerStr p).all isDigitC = p.all isDigitC := by
  unfold asciiLowerStr
  rw [List.all_map, digit_comp_lower]

theorem octet_ok_lower (p : List Char) : octet_ok (asciiLowerStr p) = octet_ok p := by
  rcases hall : p.all isDigitC with _ | _
  · have hall' : (asciiLowerStr p).all isDigitC = false := by
      rw [all_digits_lower, hall]
    unfold octet_ok
    rw [hall, hall']
    simp
  · rw [asciiLowerStr_of_all_digits hall]

theorem octet_comp_lower : octet_ok ∘ asciiLowerStr = octet_ok :=
  funext octet_ok_lower

theorem hextet_ok_lower (p : List Char) : hextet_ok (asciiLowerStr p) = hextet_ok p := by
  unfold hextet_ok
  rw [isEmpty_asciiLowerStr]
  rw [show (asciiLowerStr p).length = p.length from List.length_map ..]
  show (_ && _ && (p.map asciiLower).all isHexC) = _
  rw [List.all_map, hex_comp_lower]

theorem hextet_comp_lower : hextet_ok ∘ asciiLowerStr = hextet_ok :=
  funext hextet_ok_lower

theorem alphaLabelOk_lower (d : List Char) :
    alphaLabelOk (asciiLowerStr d) = alphaLabelOk d := by
  unfold alphaLabelOk
  rw [show (asciiLowerStr d).length = d.length from List.length_map ..]
  show (_ && (d.map asciiLower).all isAlphaC) = _
  rw [List.all_map, alpha_comp_lower]

theorem alphaLabel_comp_lower : alphaLabelOk ∘ asciiLowerStr = alphaLabelOk :=
  funext alphaLabelOk_lower

theorem claimedLabelOk_lower (d : List Char) :
    claimedLabelOk (asciiLowerStr d) = claimedLabelOk d := by
  rcases d with _ | ⟨c, cs⟩
  · rfl
  · unfold claimedLabelOk
    rw [isEmpty_asciiLowerStr, getLastD_lower c cs, isAlnumC_asciiLower]
    rw [show (asciiLowerStr (c :: cs)).length = (c :: cs).length from List.length_map ..]
    rw [show (asciiLowerStr (c :: cs)).headD 'x' = asciiLower c from rfl, isAlnumC_asciiLower]
    show (_ && _ && _ && _ && ((c :: cs).map asciiLower).all isAlnumDashC) = _
    rw [List.all_map, show isAlnumDashC ∘ asciiLower = isAlnumDashC from
      funext isAlnumDashC_asciiLower]
    rfl

theorem isEmpty_comp_asciiLowerStr :
    ((fun p : List Char => p.isEmpty) ∘ asciiLowerStr) = (fun p : List Char => p.isEmpty) :=
  funext fun p => isEmpty_asciiLowerStr p

theorem not_isEmpty_comp_asciiLowerStr :
    ((fun p : List Char => !p.isEmpty) ∘ asciiLowerStr) = (fun p : List Char => !p.isEmpty) :=
  funext fun p => by
    show (!(asciiLowerStr p).isEmpty) = _
    rw [isEmpty_asciiLowerStr]

theorem ipv6_parts_ok_lower (parts : List (List Char)) :
    ipv6_parts_ok (parts.map asciiLowerStr) = ipv6_parts_ok parts := by
  unfold ipv6_parts_ok
  rw [List.length_map]
  rw [show ((parts.map asciiLowerStr).drop 1).dropLast = ((parts.drop 1).dropLast).map asciiLowerStr
    from by rw [← List.map_drop, List.map_dropLast]]
  rw [List.findIdx?_map, isEmpty_comp_asciiLowerStr]
  rcases hidx : (parts.drop 1).dropLast.findIdx? (fun p => p.isEmpty) with _ | j
  · rw [hidx]
    simp only [Option.elim_none]
    rw [List.all_map, hextet_comp_lower]
  · rw [hidx]
    simp only [Option.elim_some]
    rw [show ((parts.drop 1).dropLast.map asciiLowerStr).drop (j + 1) =
      (((parts.drop 1).dropLast).drop (j + 1)).map asciiLowerStr from (List.map_drop ..).symm]
    rw [List.all_map, not_isEmpty_comp_asciiLowerStr]
    rcases hp : parts with _ | ⟨a, rest⟩
    · rw [hp] at hidx
      simp at hidx
    · simp only [List.map_cons, List.headD_cons]
      have hgl : (asciiLowerStr a :: rest.map asciiLowerStr).getLastD ['x'] =
          asciiLowerStr ((a :: rest).getLastD ['x']) := getLastD_lower_parts a rest ['x']
      have ht : (asciiLowerStr a :: rest.map asciiLowerStr).take (j + 1) =
          ((a :: rest).take (j + 1)).map asciiLowerStr := by
        rw [show (asciiLowerStr a :: rest.map asciiLowerStr) = (a :: rest).map asciiLowerStr from rfl]
        exact (List.map_take ..).symm
      have hdp : (asciiLowerStr a :: rest.map asciiLowerStr).drop (j + 2) =
          ((a :: rest).drop (j + 2)).map asciiLowerStr := by
        rw [show (asciiLowerStr a :: rest.map asciiLowerStr) = (a :: rest).map asciiLowerStr from rfl]
        exact (List.map_drop ..).symm
      have hln : (asciiLowerStr a :: rest.map asciiLowerStr).length = (a :: rest).length := by
        simp
      simp only [hgl, isEmpty_asciiLowerStr, ht, hdp, hln, List.all_map, hextet_comp_lower]

theorem is_ipv4_addr_lower (s : List Char) :
    is_ipv4_addr (asciiLowerStr s) = is_ipv4_addr s := by
  unfold is_ipv4_addr
  rw [contains_lower (by constructor <;> · intro h; revert h; decide) s]
  rw [splitOnChar_map_lower '.' (by constructor <;> · intro h; revert h; decide) s]
  rw [List.length_map, List.all_map, octet_comp_lower]

theorem is_ipv6_core_lower (s : List Char) :
    is_ipv6_core (asciiLowerStr s) = is_ipv6_core s := by
  unfold is_ipv6_core
  rw [isEmpty_asciiLowerStr]
  rw [splitOnChar_map_lower ':' (by constructor <;> · intro h; revert h; decide) s]
  rw [List.length_map]
  rcases splitOnChar_eq_cons ':' s with ⟨a, rest, hsp⟩
  rw [hsp]
  rw [show ((a :: rest).map asciiLowerStr).getLastD [] = asciiLowerStr ((a :: rest).getLastD [])
    from getLastD_lower_parts a rest []]
  obtain ⟨LP, hLP⟩ : ∃ LP, (a :: rest).getLastD [] = LP := ⟨_, rfl⟩
  rw [hLP]
  rw [contains_lower (by constructor <;> · intro h; revert h; decide) LP]
  by_cases hdot : LP.contains '.' = true
  · rw [if_pos hdot, if_pos hdot]
    rw [contains_lower (by constructor <;> · intro h; revert h; decide) LP]
    rw [splitOnChar_map_lower '.' (by constructor <;> · intro h; revert h; decide) LP]
    rw [List.length_map, List.all_map, octet_comp_lower]
    rw [show ((a :: rest).map asciiLowerStr).dropLast ++ [['0'], ['0']] =
      ((a :: rest).dropLast ++ [['0'], ['0']]).map asciiLowerStr from by
        rw [List.map_append, List.map_dropLast]
        rfl]
    rw [ipv6_parts_ok_lower]
  · rw [if_neg hdot, if_neg hdot]
    rw [ipv6_parts_ok_lower]

theorem is_ipv6_addr_lower (s : List Char) :
    is_ipv6_addr (asciiLowerStr s) = is_ipv6_addr s := by
  unfold is_ipv6_addr
  rw [contains_lower (by constructor <;> · intro h; revert h; decide) s]
  rw [contains_lower (by constructor <;> · intro h; revert h; decide) s]
  have hpct : ((fun c => !(c == '%')) ∘ asciiLower) = (fun c => !(c == '%')) :=
    funext fun c => by
      show (!(asciiLower c == '%')) = _
      rw [asciiLower_beq_nonletter (by constructor <;> · intro h; revert h; decide)]
  by_cases hc : s.contains '%' = true
  · rw [if_pos hc, if_pos hc]
    rw [show (asciiLowerStr s).takeWhile (fun c => !(c == '%')) =
      asciiLowerStr (s.takeWhile (fun c => !(c == '%'))) from by
        unfold asciiLowerStr
        rw [List.takeWhile_map, hpct]]
    rw [show (asciiLowerStr s).dropWhile (fun c => !(c == '%')) =
      asciiLowerStr (s.dropWhile (fun c => !(c == '%'))) from by
        unfold asciiLowerStr
        rw [List.dropWhile_map, hpct]]
    rw [show (asciiLowerStr (s.dropWhile (fun c => !(c == '%')))).drop 1 =
      asciiLowerStr ((s.dropWhile (fun c => !(c == '%'))).drop 1) from by
        unfold asciiLowerStr
        rw [List.map_drop]]
    rw [isEmpty_asciiLowerStr]
    rw [contains_lower (by constructor <;> · intro h; revert h; decide)]
    rw [is_ipv6_core_lower]
  · rw [if_neg hc, if_neg hc]
    rw [is_ipv6_core_lower]

theorem is_ip_address_lower (s : List Char) :
    is_ip_address (asciiLowerStr s) = is_ip_address s := by
  unfold is_ip_address
  rw [is_ipv4_addr_lower, is_ipv6_addr_lower]

theorem specAmendedShape_lower (host : List Char) :
    specAmendedShape (asciiLowerStr host) = specAmendedShape host := by
  unfold specAmendedShape
  rw [stripNl_lower, splitOnChar_map_lower '.'
    (by constructor <;> · intro h; revert h; decide) (stripNl host)]
  rcases splitOnChar_eq_cons '.' (stripNl host) with ⟨hd, tl, hX⟩
  rw [hX]
  simp only [List.map_cons, List.length_cons, List.length_map, List.headD_cons,
    List.tail_cons]
  rw [claimedLabelOk_lower, List.all_map, alphaLabel_comp_lower]

theorem domainFormatMatch_lower (host : List Char) :
    domainFormatMatch (asciiLowerStr host) = domainFormatMatch host := by
  rw [domainFormatMatch_eq_spec, domainFormatMatch_eq_spec, specAmendedShape_lower]

/-! ## Claim theorems -/

/-- C1: on the text `"see http://a.com and http://bb.com now"` with an empty
whitelist, the extractor finds exactly `http://a.com` at span [4,16) and
`http://bb.com` at span [21,34), and the rewrite loop with a conversion
mapping the first to `"X"` and the second to `"YY"` returns exactly
`"see X and YY now"` (offset bookkeeping across a shrinking then a growing
replacement). -/
theorem c1_extract_and_rewrite :
    extract_urls "see http://a.com and http://bb.com now".toList [] =
      [("http://a.com".toList, 4, 16), ("http://bb.com".toList, 21, 34)] ∧
    rewrite_links "see http://a.com and http://bb.com now".toList
      (extract_urls "see http://a.com and http://bb.com now".toList [])
      (fun u =>
        if u = "http://a.com".toList then "X".toList
        else if u = "http://bb.com".toList then "YY".toList else u) =
      "see X and YY now".toList := by
  constructor
  · decide
  · decide

/-- C6: the five concrete `is_valid_domain` evaluations of the specification:
an IPv4 literal, `localhost` and a host containing `example.com` are
rejected, `good-site.org` is accepted with an empty whitelist and rejected
when whitelisted. -/
theorem c6_concrete_domains :
    is_valid_domain "192.168.1.1".toList [] = false ∧
    is_valid_domain "localhost".toList [] = false ∧
    is_valid_domain "my.example.com".toList [] = false ∧
    is_valid_domain "good-site.org".toList [] = true ∧
    is_valid_domain "good-site.org".toList ["good-site.org".toList] = false := by
  refine ⟨by decide, by decide, by decide, by decide, by decide⟩

/-- C2: applying the rewrite loop to the matches produced by `extract_urls`
with any conversion that returns every matched URL unchanged — in particular
the identity — yields output identical to the input text. -/
theorem c2_identity_is_noop (text : List Char) (wl : List (List Char))
    (convert : List Char → List Char)
    (h : ∀ m ∈ extract_urls text wl, convert m.1 = m.1) :
    rewrite_links text (extract_urls text wl) convert = text ∧
    rewrite_links text (extract_urls text wl) (fun u => u) = text := by
  constructor
  · unfold rewrite_links
    rw [foldl_rewriteStep_skip convert (extract_urls text wl) (text, 0) h]
  · unfold rewrite_links
    rw [foldl_rewriteStep_skip (fun u => u) (extract_urls text wl) (text, 0)
      (fun _ _ => rfl)]

/-- Witness for C2 at a concrete input. -/
theorem c2_witness :
    rewrite_links "x a.com".toList (extract_urls "x a.com".toList []) (fun u => u) =
      "x a.com".toList :=
  (c2_identity_is_noop "x a.com".toList [] (fun u => u) (fun _ _ => rfl)).2

theorem rewrite_links_eq_segsFrom (text : List Char) (convert : List Char → List Char)
    (ms : List (List Char × Nat × Nat))
    (hm : ∀ m ∈ ms, m.2.1 < m.2.2 ∧ m.2.2 ≤ text.length ∧
      (text.drop m.2.1).take (m.2.2 - m.2.1) = m.1)
    (hpw : List.Pairwise (fun a b => a.2.2 ≤ b.2.1) ms) :
    rewrite_links text ms convert = segsFrom text convert 0 ms := by
  unfold rewrite_links
  have h := foldl_rewriteStep_segs text convert ms [] 0
    (fun m hm' => ⟨Nat.zero_le _, (hm m hm').1, (hm m hm').2.1, (hm m hm').2.2⟩) hpw
  have hinit : (([] : List Char) ++ text.drop 0,
      ((([] : List Char).length : Int) - ((0 : Nat) : Int))) = (text, (0 : Int)) := by
    simp
  rw [hinit] at h
  rw [h]
  exact List.nil_append _

theorem extract_mem_props (text : List Char) (wl : List (List Char)) :
    ∀ m ∈ extract_urls text wl, m.2.1 < m.2.2 ∧ m.2.2 ≤ text.length ∧
      (text.drop m.2.1).take (m.2.2 - m.2.1) = m.1 := by
  rintro ⟨u, s, e⟩ hm
  obtain ⟨hf, hu, _⟩ := mem_extract_urls hm
  have hb := finditer_mem hf
  exact ⟨hb.1, hb.2, hu.symm⟩

/-- C9: every match returned by `extract_urls` faithfully records a span of
the input: `0 ≤ start < end ≤ length` and the text restricted to the
half-open span `[start, end)` equals the recorded URL. -/
theorem c9_spans_faithful (text : List Char) (wl : List (List Char))
    (u : List Char) (s e : Nat) (h : (u, s, e) ∈ extract_urls text wl) :
    s < e ∧ e ≤ text.length ∧ (text.drop s).take (e - s) = u := by
  rcases mem_extract_urls h with ⟨hf, hu, _⟩
  have hb := finditer_mem hf
  exact ⟨hb.1, hb.2, hu.symm⟩

/-- Witness for C9 at a concrete input. -/
theorem c9_witness :
    (("a.com".toList, 0, 5) ∈ extract_urls "a.com".toList []) ∧
    (0 < 5 ∧ 5 ≤ ("a.com".toList).length ∧
      (("a.com".toList).drop 0).take (5 - 0) = "a.com".toList) :=
  ⟨by decide, c9_spans_faithful "a.com".toList [] "a.com".toList 0 5 (by decide)⟩

/-- C8: `extract_urls` output is a finite list, ordered left to right and
non-overlapping (each match ends no later than the next one starts); it is
empty when no position of the text carries a `URL_PATTERN` match, and empty
when every raw match's host fails the domain validator (e.g. all whitelisted
or excluded). -/
theorem c8_order_and_emptiness (text : List Char) (wl : List (List Char)) :
    List.Pairwise (fun a b => a.2.2 ≤ b.2.1) (extract_urls text wl) ∧
    ((∀ i, i < text.length → matchAt text i = none) → extract_urls text wl = []) ∧
    ((∀ p ∈ finditer text,
        is_valid_domain (candNetloc ((text.drop p.1).take (p.2 - p.1))) wl = false) →
      extract_urls text wl = []) := by
  refine ⟨extract_urls_pairwise text wl, ?_, ?_⟩
  · intro h
    unfold extract_urls finditer
    rw [finditerGo_eq_nil text h]
    rfl
  · intro h
    unfold extract_urls
    rw [List.filterMap_eq_nil_iff]
    intro p hp
    simp only
    rw [if_neg ?_]
    rw [h p hp]
    exact Bool.false_ne_true

/-- Witness for C8 at concrete inputs, discharging both hypotheses. -/
theorem c8_witness :
    extract_urls "hi there".toList [] = [] ∧
    extract_urls "a.com".toList ["a.com".toList] = [] :=
  ⟨(c8_order_and_emptiness "hi there".toList []).2.1 (by decide),
   (c8_order_and_emptiness "a.com".toList ["a.com".toList]).2.2 (by decide)⟩

/-- C10: the rewrite loop only ever touches the matched spans: on the matches
produced by `extract_urls`, its output is exactly the interleaving of the
unchanged text segments outside the spans with, for each match, either the
matched URL (conversion unchanged) or its conversion result. -/
theorem c10_frame_only_spans (text : List Char) (wl : List (List Char))
    (convert : List Char → List Char) :
    rewrite_links text (extract_urls text wl) convert =
      segsFrom text convert 0 (extract_urls text wl) :=
  rewrite_links_eq_segsFrom text convert (extract_urls text wl)
    (extract_mem_props text wl) (extract_urls_pairwise text wl)

/-- C3: when `extract_urls` returns exactly two matches, the first conversion
returns its URL unchanged and the second returns something different, the
loop applies no edit and no offset change for the first match: the output is
the text with only the second span replaced, and the first matched substring
is still byte-identical at its original position. -/
theorem c3_skip_then_replace (text : List Char) (wl : List (List Char))
    (convert : List Char → List Char) (u1 u2 : List Char) (s1 e1 s2 e2 : Nat)
    (hx : extract_urls text wl = [(u1, s1, e1), (u2, s2, e2)])
    (h1 : convert u1 = u1) (h2 : convert u2 ≠ u2) :
    rewrite_links text (extract_urls text wl) convert =
      text.take s2 ++ convert u2 ++ text.drop e2 ∧
    ((rewrite_links text (extract_urls text wl) convert).drop s1).take (e1 - s1) = u1 := by
  have hprops := extract_mem_props text wl
  rw [hx] at hprops
  have hpw := extract_urls_pairwise text wl
  rw [hx] at hpw
  obtain ⟨hb1, hl1, hu1⟩ := hprops (u1, s1, e1) (List.mem_cons_self ..)
  obtain ⟨hb2, hl2, hu2⟩ := hprops (u2, s2, e2)
    (List.mem_cons_of_mem _ (List.mem_cons_self ..))
  dsimp only at hb1 hl1 hu1 hb2 hl2 hu2
  have hord : e1 ≤ s2 := by
    have := List.rel_of_pairwise_cons hpw (List.mem_cons_self ..)
    exact this
  have hmain : rewrite_links text (extract_urls text wl) convert =
      text.take s2 ++ convert u2 ++ text.drop e2 := by
    rw [hx, rewrite_links_eq_segsFrom text convert _ hprops hpw]
    simp only [segsFrom]
    rw [if_pos h1, if_neg h2]
    rw [List.drop_zero, Nat.sub_zero]
    have hjoin := take_join text (le_of_lt hb1) hord (by omega : s2 ≤ text.length) hu1
    rw [← hjoin]
    simp [List.append_assoc]
  refine ⟨hmain, ?_⟩
  rw [hmain]
  have hlen2 : (text.take s2).length = s2 := by
    rw [List.length_take]
    omega
  have hd : (text.take s2 ++ convert u2 ++ text.drop e2).drop s1 =
      (text.take s2).drop s1 ++ (convert u2 ++ text.drop e2) := by
    rw [List.append_assoc, List.drop_append_of_le_length (by omega)]
  rw [hd]
  have ht : ((text.take s2).drop s1 ++ (convert u2 ++ text.drop e2)).take (e1 - s1) =
      ((text.take s2).drop s1).take (e1 - s1) := by
    apply List.take_append_of_le_length
    rw [List.length_drop, hlen2]
    omega
  rw [ht, List.drop_take, List.take_take]
  rw [min_eq_left (by omega)]
  exact hu1

/-- C7 counterexample: Python's `str.lower` maps U+212A KELVIN SIGN to the
ASCII letter `k`, so at the host `"K.com"` spelled with KELVIN SIGN the
validator rejects the host while it accepts the lower-cased image `"k.com"` —
the claimed equation between `is_valid_domain` and its lower-cased instance
fails at that host. -/
theorem c7_counterexample :
    lowerStr ['\u212A', '.', 'c', 'o', 'm'] = "k.com".toList ∧
    is_valid_domain ['\u212A', '.', 'c', 'o', 'm'] [] = false ∧
    is_valid_domain (lowerStr ['\u212A', '.', 'c', 'o', 'm'])
      (([] : List (List Char)).map lowerStr) = true := by
  refine ⟨by decide, by decide, by decide⟩

/-- C7 (amended): for every host consisting of ASCII characters and every
whitelist, `is_valid_domain` is unchanged by lower-casing the host and every
whitelist entry (the whitelist side needs no ASCII restriction, by idempotence
of lowering); in particular `"Example.ORG"` is rejected when the whitelist
contains `"example.org"`. -/
theorem c7_amended (host : List Char) (wl : List (List Char))
    (hhost : ∀ c ∈ host, c.toNat ≤ 127) :
    is_valid_domain host wl = is_valid_domain (lowerStr host) (wl.map lowerStr) ∧
    is_valid_domain "Example.ORG".toList ["example.org".toList] = false := by
  refine ⟨?_, by decide⟩
  unfold is_valid_domain
  have h1 : lowerStr (lowerStr host) = lowerStr host := lowerStr_idem host
  have h2 : (wl.map lowerStr).map lowerStr = wl.map lowerStr := by
    rw [List.map_map]
    exact List.map_congr_left fun x _ => lowerStr_idem x
  have h3 : (wl.map lowerStr).isEmpty = wl.isEmpty := by cases wl <;> rfl
  have h4 : lowerStr host = asciiLowerStr host := lowerStr_eq_ascii hhost
  have h5 : is_ip_address (lowerStr host) = is_ip_address host := by
    rw [h4, is_ip_address_lower]
  have h6 : domainFormatMatch (lowerStr host) = domainFormatMatch host := by
    rw [h4, domainFormatMatch_lower]
  simp only [h1, h2, h3, h5, h6]

/-- Witness for the amended C7 at a concrete ASCII host and whitelist. -/
theorem c7_witness :
    is_valid_domain "Example.ORG".toList ["example.org".toList] =
      is_valid_domain (lowerStr "Example.ORG".toList)
        (["example.org".toList].map lowerStr) :=
  (c7_amended "Example.ORG".toList ["example.org".toList] (by decide)).1

/-- Witness for C3 at a concrete input: two matches, the first conversion
declines, the second rewrites to `"Z"`. -/
theorem c3_witness :
    rewrite_links "a.com b.com".toList (extract_urls "a.com b.com".toList [])
        (fun u => if u = "b.com".toList then "Z".toList else u) =
      ("a.com b.com".toList).take 6 ++ "Z".toList ++ ("a.com b.com".toList).drop 11 ∧
    ((rewrite_links "a.com b.com".toList (extract_urls "a.com b.com".toList [])
        (fun u => if u = "b.com".toList then "Z".toList else u)).drop 0).take (5 - 0) =
      "a.com".toList := by
  have h := c3_skip_then_replace "a.com b.com".toList []
    (fun u => if u = "b.com".toList then "Z".toList else u)
    "a.com".toList "b.com".toList 0 5 6 11 (by decide) (by decide) (by decide)
  exact h

/-- C5 counterexample: `"www.my-site.com"` has the claim's shape (every label
alphanumeric-with-internal-hyphens, final label alphabetic) and is excluded by
none of the whitelist, localhost, `example.com` or IP rules, yet
`is_valid_domain` rejects it — the code's pattern only allows digits and
hyphens in the first label. -/
theorem c5_counterexample :
    specClaimedShape "www.my-site.com".toList = true ∧
    is_valid_domain "www.my-site.com".toList [] = false ∧
    lowerStr "www.my-site.com".toList ≠ "localhost".toList ∧
    hasInfix (lowerStr "www.my-site.com".toList) ("example.com".toList) = false ∧
    is_ip_address "www.my-site.com".toList = false := by
  refine ⟨by decide, by decide, by decide, by decide, by decide⟩

/-- C5 (amended): for every host not excluded by the whitelist, localhost,
`example.com`-substring, or IP-literal rules, `is_valid_domain` returns true
iff the host (up to one tolerated trailing newline, per Python `$`) consists
of dot-separated labels where the first label is alphanumeric with internal
hyphens (1-63 characters, no leading or trailing hyphen) and every subsequent
label is purely alphabetic of length at least 2. -/
theorem c5_amended (host : List Char) (wl : List (List Char))
    (hw : (wl.map lowerStr).contains (lowerStr host) = false)
    (hl : ¬(lowerStr host = "localhost".toList))
    (he : hasInfix (lowerStr host) ("example.com".toList) = false)
    (hip : is_ip_address host = false) :
    is_valid_domain host wl = specAmendedShape host := by
  unfold is_valid_domain
  rw [if_neg ?c1, if_neg hl, if_neg ?c3, if_neg ?c4]
  case c1 =>
    intro hcon
    have h2 := ((Bool.and_eq_true ..).mp hcon).2
    rw [hw] at h2
    exact absurd h2 (by simp)
  case c3 =>
    simpa using he
  case c4 =>
    simp [hip]
  exact domainFormatMatch_eq_spec host

/-- Witness for the amended C5 at a concrete input. -/
theorem c5_witness :
    is_valid_domain "my-site.com".toList [] = specAmendedShape "my-site.com".toList :=
  c5_amended "my-site.com".toList [] (by decide) (by decide) (by decide) (by decide)

/-- C4 (code bug): when the Linkvertise client raises, `convert_to_linkvertise`
does return without propagating the failure, but for a scheme-less input it
returns the `http://`-prefixed URL rather than the input unchanged, because
the prefix is attached before the `try` block and the `except` branch returns
the already-modified variable.  Evaluated at the failing input `"a.com"` with
an always-raising client. -/
theorem c4_failure_returns_prefixed_url :
    convert_to_linkvertise "a.com".toList (fun _ _ => Except.error ()) 1 none =
      "http://a.com".toList ∧
    "http://a.com".toList ≠ "a.com".toList := by
  exact ⟨rfl, by decide⟩

end CycleCogs
